import Mathlib

set_option maxRecDepth 8000

/-!
# Verification of the `dictzip` reader/writer (pebbe/dictzip)

Shallow embedding of `dictzip.go` into Lean 4.

Modelling conventions:
* A byte stream is a `List Nat` (values `< 256` where produced by the code;
  byte extraction in the writer is performed with explicit `% 256` / `/ 256`,
  mirroring Go's `byte(x & 255)`, `byte((x >> 8) & 255)`, …).
* The DEFLATE compressor/decompressor and the CRC-32 primitive are external
  collaborators (package `compress/flate`, `hash/crc32`); they are modelled as
  parameters: a `Flate` structure of abstract functions and a `crc : List Nat → Nat`
  function of the byte sequence fed to the running `crc32.NewIEEE()` accumulator.
* Go `int64` values are modelled as `Int` with Go's truncating division
  (`Int.tdiv`); Go `uint64` values as `Nat` with explicit `% 2^64`.
* Fallible operations return `Except`; a Go runtime panic (index or slice out
  of range, division by zero) is modelled as the distinguished error `.panic`.
-/

namespace Dictzip

/-- Two bytes, little endian: `byte(n & 255), byte((n >> 8) & 255)`. -/
def le16 (n : Nat) : List Nat := [n % 256, n / 256 % 256]

/-- Four bytes, little endian:
`byte(n & 255), byte((n >> 8) & 255), byte((n >> 16) & 255), byte((n >> 24) & 255)`. -/
def le32 (n : Nat) : List Nat :=
  [n % 256, n / 2 ^ 8 % 256, n / 2 ^ 16 % 256, n / 2 ^ 24 % 256]

/-- `const blocksize = 58315` in `Write`. -/
def blocksizeW : Nat := 58315

/-- Fuel-indexed chunking loop: the `Write` read loop splits the source into
consecutive pieces of at most `blocksizeW` bytes (the final piece may be
short; empty reads append nothing).  The fuel argument is only a termination
device; `chunks` supplies `l.length`, which is always sufficient. -/
def chunksAux : Nat → List Nat → List (List Nat)
  | 0, _ => []
  | _ + 1, [] => []
  | fuel + 1, b :: tl => ((b :: tl).take blocksizeW) :: chunksAux fuel ((b :: tl).drop blocksizeW)

/-- The sequence of raw-byte chunks the `Write` loop feeds to the compressor. -/
def chunks (l : List Nat) : List (List Nat) := chunksAux l.length l

/-! ## The DEFLATE collaborator

The raw DEFLATE primitive (`compress/flate`) is external to this repository.
The writer uses it through `fw.Write; fw.Flush(); fw.Reset(&buf)` per chunk and
one final `fw.Close()`; the reader through `flate.NewReader` positioned at a
block boundary.  We model it as a structure of abstract functions. -/

structure Flate where
  /-- Bytes appended to the buffer for one chunk by `Write`+`Flush`+`Reset`. -/
  compress : List Nat → List Nat
  /-- Bytes appended by the final `fw.Close()`. -/
  closeMark : List Nat
  /-- Behaviour of `readfull(flate.NewReader(stream), buf)`: reading exactly
  `n` decompressed bytes from the front of `stream`; `none` is a read error. -/
  decompress : List Nat → Nat → Option (List Nat)

/-- Contract of the DEFLATE collaborator, as the writer and reader rely on it:
a fresh decompressor positioned at a block boundary of a sequence of
independently compressed (nonempty) chunks delivers the concatenated raw bytes
of the chunks from that boundary on, for any requested count that does not
run past the raw data.  This holds of Go flate because `Flush` ends each chunk
at a bit boundary with a zero-length stored block and `Reset` starts the next
chunk as a fresh stream whose blocks simply continue the byte sequence. -/
def FlateSpec (fl : Flate) : Prop :=
  ∀ bs : List (List Nat), (∀ b ∈ bs, b ≠ []) →
    ∀ (rest : List Nat) (n : Nat), n ≤ bs.flatten.length →
      fl.decompress ((bs.map fl.compress).flatten ++ fl.closeMark ++ rest) n
        = some (bs.flatten.take n)

/-! ## Writer (`func Write`)

The writer is modelled as the ordered list of its destination-file effects:
`os.Create(filename)` and each `fp.Write(...)` call, together with its
`error` result.  The source stream is `input` followed, when `srcErr` is set,
by a read error other than `io.EOF`; `readfull` surfaces that error and the
write loop returns it at once, before `os.Create` is reached. -/

inductive WEvent where
  | created : WEvent
  | wrote : List Nat → WEvent
deriving DecidableEq

inductive WErr where
  | badLevel : WErr
  | srcRead : WErr
deriving DecidableEq

/-- The XFL byte: 2 for `flate.BestCompression` (9), 4 for `flate.BestSpeed` (1). -/
def xflOf (level : Int) : Nat := if level = 9 then 2 else if level = 1 then 4 else 0

/-- The 10 fixed header bytes: magic `31,139`, method `8`, flags `4` (FEXTRA),
mtime, XFL, OS `255`. -/
def gzHeader (now : Nat) (xfl : Nat) : List Nat := [31, 139, 8, 4] ++ le32 now ++ [xfl, 255]

/-- The second `fp.Write`: `xlen`, subfield id `R`,`A`, subfield length,
version `1,0`, blocksize, block count. -/
def extraHead (cnt : Nat) : List Nat :=
  le16 (10 + 2 * cnt) ++ [82, 65] ++ le16 (6 + 2 * cnt) ++ [1, 0] ++ le16 blocksizeW ++ le16 cnt

/-- The per-block recorded compressed lengths, two bytes each. -/
def sizeBytes (fl : Flate) (blocks : List (List Nat)) : List Nat :=
  (blocks.map fun b => le16 (fl.compress b).length).flatten

/-- The accumulated compression buffer `buf` written after the size table. -/
def bodyBytes (fl : Flate) (blocks : List (List Nat)) : List Nat :=
  (blocks.map fl.compress).flatten ++ fl.closeMark

/-- The 8 trailer bytes: CRC-32, then the raw byte count. -/
def trailerBytes (crcv isize : Nat) : List Nat := le32 crcv ++ le32 isize

/-- One invocation of `Write`: `flate.NewWriter` rejects levels outside
`[-2, 9]`; a non-`io.EOF` source error is returned from inside the read loop,
before `os.Create`; otherwise the destination is created and written in the
order of the source's `fp.Write` calls. -/
def writeRun (fl : Flate) (crc : List Nat → Nat) (level : Int) (now : Nat)
    (input : List Nat) (srcErr : Bool) : List WEvent × Except WErr Unit :=
  if level < -2 ∨ 9 < level then ([], .error .badLevel)
  else if srcErr then ([], .error .srcRead)
  else
    let blocks := chunks input
    let sizes := blocks.map fun b => (fl.compress b).length
    let cnt := blocks.length
    (([.created,
       .wrote (gzHeader now (xflOf level)),
       .wrote (extraHead cnt)]
      ++ sizes.map (fun s => WEvent.wrote (le16 s))
      ++ [.wrote (bodyBytes fl blocks),
          .wrote (trailerBytes (crc input) input.length)]),
     .ok ())

def eventBytes : WEvent → List Nat
  | .created => []
  | .wrote bs => bs

/-- The full byte content of the destination file on a successful `Write`. -/
def writeFile (fl : Flate) (crc : List Nat → Nat) (level : Int) (now : Nat)
    (input : List Nat) : List Nat :=
  ((writeRun fl crc level now input false).1.map eventBytes).flatten

/-- A throwaway `Flate` instance for witnesses that never decompress. -/
def rawFlate : Flate := ⟨fun b => b, [], fun _ _ => none⟩

/-- A throwaway CRC function for witnesses. -/
def zeroCrc : List Nat → Nat := fun _ => 0

/-! ## Base64 decoder (`var list`, `var index`, `func decode`) -/

/-- The base-64 alphabet `"ABCDEFGHIJKLMNOPQRSTUVWXYZabcdefghijklmnopqrstuvwxyz0123456789+/"`
as ASCII codes. -/
def list : List Nat :=
  [65, 66, 67, 68, 69, 70, 71, 72, 73, 74, 75, 76, 77, 78, 79, 80, 81, 82, 83,
   84, 85, 86, 87, 88, 89, 90,
   97, 98, 99, 100, 101, 102, 103, 104, 105, 106, 107, 108, 109, 110, 111, 112,
   113, 114, 115, 116, 117, 118, 119, 120, 121, 122,
   48, 49, 50, 51, 52, 53, 54, 55, 56, 57, 43, 47]

/-- The 256-entry digit-value lookup table; 99 is the sentinel for bytes
outside the alphabet. -/
def index : List Nat :=
  [99, 99, 99, 99, 99, 99, 99, 99, 99, 99, 99, 99, 99, 99, 99, 99,
   99, 99, 99, 99, 99, 99, 99, 99, 99, 99, 99, 99, 99, 99, 99, 99,
   99, 99, 99, 99, 99, 99, 99, 99, 99, 99, 99, 62, 99, 99, 99, 63,
   52, 53, 54, 55, 56, 57, 58, 59, 60, 61, 99, 99, 99, 99, 99, 99,
   99, 0, 1, 2, 3, 4, 5, 6, 7, 8, 9, 10, 11, 12, 13, 14,
   15, 16, 17, 18, 19, 20, 21, 22, 23, 24, 25, 99, 99, 99, 99, 99,
   99, 26, 27, 28, 29, 30, 31, 32, 33, 34, 35, 36, 37, 38, 39, 40,
   41, 42, 43, 44, 45, 46, 47, 48, 49, 50, 51, 99, 99, 99, 99, 99,
   99, 99, 99, 99, 99, 99, 99, 99, 99, 99, 99, 99, 99, 99, 99, 99,
   99, 99, 99, 99, 99, 99, 99, 99, 99, 99, 99, 99, 99, 99, 99, 99,
   99, 99, 99, 99, 99, 99, 99, 99, 99, 99, 99, 99, 99, 99, 99, 99,
   99, 99, 99, 99, 99, 99, 99, 99, 99, 99, 99, 99, 99, 99, 99, 99,
   99, 99, 99, 99, 99, 99, 99, 99, 99, 99, 99, 99, 99, 99, 99, 99,
   99, 99, 99, 99, 99, 99, 99, 99, 99, 99, 99, 99, 99, 99, 99, 99,
   99, 99, 99, 99, 99, 99, 99, 99, 99, 99, 99, 99, 99, 99, 99, 99,
   99, 99, 99, 99, 99, 99, 99, 99, 99, 99, 99, 99, 99, 99, 99, 99]

inductive DErr where
  | illegalChar : DErr
  | overflow : DErr
deriving DecidableEq

instance instDecEqExcept {ε α : Type} [DecidableEq ε] [DecidableEq α] :
    DecidableEq (Except ε α) := fun a b =>
  match a, b with
  | .error e, .error f => decidable_of_iff (e = f) (by simp)
  | .error _, .ok _ => isFalse (by simp)
  | .ok _, .error _ => isFalse (by simp)
  | .ok a, .ok b => decidable_of_iff (a = b) (by simp)

/-- The loop body of `decode`: the Go loop runs `i` from the last character
down to the first, so it processes the reversed character list; `result` and
`offset` are the `uint64` accumulator and shift offset.  Go `uint64` shifts
are arithmetic modulo `2 ^ 64`. -/
def decodeLoop : List Nat → Nat → Nat → Except DErr Nat
  | [], result, _ => .ok result
  | c :: rest, result, offset =>
    let tmp := index.getD c 99
    if tmp = 99 then .error .illegalChar
    else if ((tmp <<< offset) % 2 ^ 64) >>> offset ≠ tmp then .error .overflow
    else decodeLoop rest (result ||| ((tmp <<< offset) % 2 ^ 64)) (offset + 6)

/-- Reinterpretation of the `uint64` accumulator as a signed `int64`
(`return int64(result), nil`). -/
def toInt64 (n : Nat) : Int := if n < 2 ^ 63 then (n : Int) else (n : Int) - 2 ^ 64

/-- `func decode(val string) (int64, error)`; a Go string is a byte list. -/
def decode (val : List Nat) : Except DErr Int :=
  (decodeLoop val.reverse 0 0).map toInt64

/-- Modelled from the spec: the source file contains only `decode`; the
`encode(integer) -> text` half of the CompactIntegerCodec is described in
§4.5 of the specification - the minimal-length base-64 positional
representation, most-significant character first, over the same alphabet,
with no superfluous leading zero-digit and `0` encoded as the alphabet's
zero-digit character.  `Nat.digits 64` is the minimal little-endian digit
expansion, so its reverse mapped through the alphabet realises exactly that. -/
def encode (n : Nat) : List Nat :=
  if n = 0 then [list.getD 0 0]
  else ((Nat.digits 64 n).reverse).map fun d => list.getD d 0

/-! ## Reader (`type Reader`, `func NewReader`, `func (dz *Reader) Get`)

The underlying `io.ReadSeeker` is modelled as the byte list `fp` with
absolute positions; `readfull` into an `n`-byte buffer at position `p`
succeeds exactly when `p + n ≤ fp.length` (a short read at end of input
returns the `io.EOF` error, modelled `.io`).  A Go runtime panic (index or
slice out of range) is the error `.panic`. -/

inductive RErr where
  | io : RErr
  | badMagic : RErr
  | badMethod : RErr
  | missingMeta : RErr
  | badVersion : RErr
  | panic : RErr
deriving DecidableEq

/-- The format-error family of §7 of the spec: bad magic, unsupported
method, missing or undersized dictzip metadata, unsupported version. -/
def RErr.isFormat : RErr → Bool
  | .badMagic => true
  | .badMethod => true
  | .missingMeta => true
  | .badVersion => true
  | _ => false

/-- The extra-field record scan (`for q := 0; q < len(h);` in `NewReader`):
walks `(si1, si2, len16, payload)` records, capturing the payload of the
record tagged `R`,`A`.  Out-of-range index or slice accesses in the Go code
are `.error .panic`.  The fuel only drives termination; every call supplies
at least `h.length + 1`, which is sufficient since `q` advances by at least
4 per step while it stays below `h.length`. -/
def scanRAAux (h : List Nat) : Nat → Nat → List Nat → Except RErr (List Nat)
  | 0, _, meta => .ok meta
  | fuel + 1, q, meta =>
    if q < h.length then
      if q + 4 ≤ h.length then
        let ln := h.getD (q + 2) 0 + 256 * h.getD (q + 3) 0
        if h.getD q 0 = 82 ∧ h.getD (q + 1) 0 = 65 then
          if q + 4 + ln ≤ h.length then
            scanRAAux h fuel (q + 4 + ln) ((h.drop (q + 4)).take ln)
          else .error .panic
        else scanRAAux h fuel (q + 4 + ln) meta
      else .error .panic
    else .ok meta

def scanRA (h : List Nat) (meta : List Nat) : Except RErr (List Nat) :=
  scanRAAux h (h.length + 1) 0 meta

/-- Skipping a zero-terminated field (file name, comment): consume bytes up
to and including the first zero; running past the end of input is the
`readfull` end-of-file error. -/
def skipZeroAux (f : List Nat) : Nat → Nat → Except RErr Nat
  | 0, _ => .error .io
  | fuel + 1, p =>
    if p < f.length then
      if f.getD p 0 = 0 then .ok (p + 1)
      else skipZeroAux f fuel (p + 1)
    else .error .io

def skipZero (f : List Nat) (p : Nat) : Except RErr Nat :=
  skipZeroAux f (f.length + 1 - p) p

/-- The FEXTRA phase of the parse (`if flg&4 != 0`): read the two `xlen`
bytes, read `xlen` bytes of extra field, scan its records for the `R`,`A`
payload; returns the position after the extra field and the captured
metadata. -/
def extraStep (f : List Nat) (flg : Nat) : Except RErr (Nat × List Nat) :=
  if flg &&& 4 ≠ 0 then
    if 12 ≤ f.length then
      let xlen := f.getD 10 0 + 256 * f.getD 11 0
      if 12 + xlen ≤ f.length then
        match scanRA ((f.drop 12).take xlen) [] with
        | .error e => .error e
        | .ok meta => .ok (12 + xlen, meta)
      else .error .io
    else .error .io
  else .ok (10, [])

/-- Skipping a zero-terminated field when its flag bit (8 for FNAME, 16 for
FCOMMENT) is set. -/
def nameStep (f : List Nat) (flg flag p : Nat) : Except RErr Nat :=
  if flg &&& flag ≠ 0 then skipZero f p else .ok p

/-- Consuming the two FHCRC bytes when flag bit 2 is set. -/
def hcrcStep (f : List Nat) (flg p3 : Nat) : Except RErr Nat :=
  if flg &&& 2 ≠ 0 then
    if p3 + 2 ≤ f.length then .ok (p3 + 2) else .error .io
  else .ok p3

/-- The final metadata checks of `NewReader`: length at least 6, version
field 1; on success deliver `(p, blocksize, metadata)`. -/
def metaCheck (p4 : Nat) (metadata : List Nat) : Except RErr (Nat × Nat × List Nat) :=
  if 6 ≤ metadata.length then
    if metadata.getD 0 0 + 256 * metadata.getD 1 0 = 1 then
      .ok (p4, metadata.getD 2 0 + 256 * metadata.getD 3 0, metadata)
    else .error .badVersion
  else .error .missingMeta

/-- The header parse of `NewReader` up to the version and blocksize checks:
returns `(p, blocksize, metadata)` where `p` is the running consumed-byte
counter after the header, extra field, optional name and comment fields and
optional header CRC. -/
def parseHeader (f : List Nat) : Except RErr (Nat × Nat × List Nat) :=
  if 10 ≤ f.length then
    if f.getD 0 0 = 31 ∧ f.getD 1 0 = 139 then
      if f.getD 2 0 = 8 then
        let flg := f.getD 3 0
        match extraStep f flg with
        | .error e => .error e
        | .ok (p1, metadata) =>
          match nameStep f flg 8 p1 with
          | .error e => .error e
          | .ok p2 =>
            match nameStep f flg 16 p2 with
            | .error e => .error e
            | .ok p3 =>
              match hcrcStep f flg p3 with
              | .error e => .error e
              | .ok p4 => metaCheck p4 metadata
      else .error .badMethod
    else .error .badMagic
  else .error .io

structure Reader where
  fp : List Nat
  offsets : List Nat
  blocksize : Nat
deriving DecidableEq

/-- The per-block compressed lengths read from the metadata:
`int64(metadata[6+2*i]) + 256*int64(metadata[7+2*i])`. -/
def blockLens (meta : List Nat) (cnt : Nat) : List Nat :=
  (List.range cnt).map fun i => meta.getD (6 + 2 * i) 0 + 256 * meta.getD (7 + 2 * i) 0

/-- The cumulative offsets loop: `offsets[0] = p`,
`offsets[i+1] = offsets[i] + blockLens[i]`. -/
def mkOffsets : Nat → List Nat → List Nat
  | p, [] => [p]
  | p, l :: ls => p :: mkOffsets (p + l) ls

/-- `func NewReader`: parse the header, then build the offsets array.  The
offsets loop indexes `metadata[6+2*i]` and `metadata[7+2*i]` without a bound
check, so a metadata payload shorter than `6 + 2*blockcnt` panics. -/
def NewReader (f : List Nat) : Except RErr Reader :=
  match parseHeader f with
  | .error e => .error e
  | .ok (p, bs, meta) =>
    let blockcnt := meta.getD 4 0 + 256 * meta.getD 5 0
    if 6 + 2 * blockcnt ≤ meta.length then
      .ok ⟨f, mkOffsets p (blockLens meta blockcnt), bs⟩
    else .error .panic

inductive GErr where
  | io : GErr
  | panic : GErr
  | enc : DErr → GErr
deriving DecidableEq

/-- `func (dz *Reader) Get(start, size int64)`.  Go `int64` division
truncates toward zero (`Int.tdiv`).  In program order the Go code can:
panic dividing by a zero blocksize; panic indexing `offsets` with a
negative or too-large block index; panic in `make([]byte, size1)` for a
negative length; fail reading `size1` bytes from the fresh decompressor;
and panic slicing `data[start-start1:]` outside `[0, len(data)]`. -/
def Get (fl : Flate) (r : Reader) (start size : Int) : Except GErr (List Nat) :=
  if r.blocksize = 0 then .error .panic
  else
    let bs : Int := (r.blocksize : Int)
    let bi : Int := start.tdiv bs
    let start1 : Int := bs * bi
    let size1 : Int := size + (start - start1)
    if 0 ≤ bi ∧ bi.toNat < r.offsets.length then
      if 0 ≤ size1 then
        match fl.decompress (r.fp.drop (r.offsets.getD bi.toNat 0)) size1.toNat with
        | none => .error .io
        | some data =>
          if 0 ≤ start - start1 ∧ start - start1 ≤ size1 then
            .ok (data.drop (start - start1).toNat)
          else .error .panic
      else .error .panic
    else .error .panic

/-- `func (dz *Reader) GetB64`: decode both base-64 arguments, then
delegate to `Get`. -/
def GetB64 (fl : Flate) (r : Reader) (start size : List Nat) : Except GErr (List Nat) :=
  match decode start with
  | .error e => .error (.enc e)
  | .ok start2 =>
    match decode size with
    | .error e => .error (.enc e)
    | .ok size2 => Get fl r start2 size2

/-! ## A concrete DEFLATE stand-in

A trivially verifiable framing codec satisfying `FlateSpec`: each chunk is
emitted as its length followed by its bytes, and the decompressor walks the
frames.  It serves to instantiate the abstract collaborator in witnesses and
counterexamples.  The fuel argument of the decoder is only a termination
device; each recursive step consumes at least one stream element. -/

def unDecAux : Nat → Nat → List Nat → Option (List Nat)
  | _, 0, _ => some []
  | 0, _ + 1, _ => none
  | _ + 1, _ + 1, [] => none
  | fuel + 1, n + 1, ln :: rest =>
    if ln ≤ rest.length then
      if n + 1 ≤ ln then some (rest.take (n + 1))
      else
        match unDecAux fuel (n + 1 - ln) (rest.drop ln) with
        | none => none
        | some tail => some (rest.take ln ++ tail)
    else none

def unaryFlate : Flate :=
  ⟨fun b => b.length :: b, [], fun stream n => unDecAux stream.length n stream⟩

/-! ## Random access within one block -/

/-- Semantic well-formedness of a `Reader` with respect to the raw content it
represents: positive blocksize, one offsets entry per block plus one, and
every offsets entry locates a stream position from which a fresh decompressor
delivers the raw bytes from that block boundary on (up to the end of the raw
data; each block was written as an independently resettable stream). -/
def Represents (fl : Flate) (r : Reader) (raw : List Nat) : Prop :=
  0 < r.blocksize ∧
  r.offsets.length = (raw.length + (r.blocksize - 1)) / r.blocksize + 1 ∧
  ∀ i, i < r.offsets.length →
    ∀ n, n ≤ raw.length - i * r.blocksize →
      fl.decompress (r.fp.drop (r.offsets.getD i 0)) n
        = some ((raw.drop (i * r.blocksize)).take n)

/-- A concrete 39-byte dictzip file over the framing codec: blocksize 2, raw
content `[5, 6, 7]` in two blocks, offsets `[26, 29, 31]`. -/
def wFile : List Nat :=
  [31, 139, 8, 4, 0, 0, 0, 0, 0, 255, 14, 0, 82, 65, 10, 0, 1, 0, 2, 0, 2, 0,
   3, 0, 2, 0, 2, 5, 6, 1, 7, 0, 0, 0, 0, 3, 0, 0, 0]

def wReader : Reader := ⟨wFile, [26, 29, 31], 2⟩

/-- The dictzip metadata payload the writer emits: version 1, blocksize,
block count, then the recorded compressed lengths. -/
def dictMeta (fl : Flate) (blocks : List (List Nat)) : List Nat :=
  [1, 0] ++ (le16 blocksizeW ++ (le16 blocks.length ++ sizeBytes fl blocks))

/-! ## Theorems -/

/-- The value a little-endian 16-bit field parses back to:
`int(b0) + 256*int(b1)` applied to the bytes of `le16 n`. -/
theorem le16_val (n : Nat) : n % 256 + 256 * (n / 256 % 256) = n % 65536 := by
  omega

@[simp] theorem le16_length (n : Nat) : (le16 n).length = 2 := rfl

@[simp] theorem le32_length (n : Nat) : (le32 n).length = 4 := rfl

theorem chunksAux_nil (fuel : Nat) : chunksAux fuel [] = [] := by
  cases fuel <;> rfl

theorem chunksAux_eq_of_le (fuel : Nat) : ∀ (fuel' : Nat) (l : List Nat),
    l.length ≤ fuel → l.length ≤ fuel' → chunksAux fuel l = chunksAux fuel' l := by
  induction fuel with
  | zero =>
    intro fuel' l h _
    rw [List.length_eq_zero.mp (Nat.le_zero.mp h), chunksAux_nil, chunksAux_nil]
  | succ f ih =>
    intro fuel' l h h'
    match l with
    | [] => rw [chunksAux_nil, chunksAux_nil]
    | b :: tl =>
      match fuel' with
      | 0 => simp at h'
      | f' + 1 =>
        simp only [chunksAux]
        congr 1
        have hb : blocksizeW = 58315 := rfl
        refine ih f' _ ?_ ?_ <;> simp only [List.length_drop, List.length_cons] at * <;> omega

theorem chunks_cons (b : Nat) (tl : List Nat) :
    chunks (b :: tl) = (b :: tl).take blocksizeW :: chunks ((b :: tl).drop blocksizeW) := by
  simp only [chunks, List.length_cons, chunksAux]
  congr 1
  refine chunksAux_eq_of_le _ _ _ ?_ le_rfl
  have hb : blocksizeW = 58315 := rfl
  simp only [List.length_drop, List.length_cons]
  omega

@[simp] theorem chunks_nil : chunks [] = [] := rfl

theorem chunksAux_flatten (fuel : Nat) : ∀ l : List Nat,
    l.length ≤ fuel → (chunksAux fuel l).flatten = l := by
  induction fuel with
  | zero =>
    intro l h
    rw [List.length_eq_zero.mp (Nat.le_zero.mp h)]
    rfl
  | succ f ih =>
    intro l h
    match l with
    | [] => rfl
    | b :: tl =>
      simp only [chunksAux, List.flatten_cons]
      rw [ih _ (by have hb : blocksizeW = 58315 := rfl
                   simp only [List.length_drop, List.length_cons] at *
                   omega)]
      exact List.take_append_drop _ _

/-- Concatenating the chunks restores the input. -/
theorem chunks_flatten (l : List Nat) : (chunks l).flatten = l :=
  chunksAux_flatten _ _ le_rfl

theorem chunksAux_ne_nil (fuel : Nat) : ∀ l : List Nat,
    l.length ≤ fuel → ∀ b ∈ chunksAux fuel l, b ≠ [] := by
  induction fuel with
  | zero =>
    intro l h
    rw [List.length_eq_zero.mp (Nat.le_zero.mp h)]
    simp [chunksAux_nil]
  | succ f ih =>
    intro l h
    match l with
    | [] => simp [chunksAux]
    | b :: tl =>
      simp only [chunksAux]
      intro c hc
      rcases List.mem_cons.mp hc with hcc | hcc
      · subst hcc
        simp [blocksizeW]
      · refine ih _ ?_ c hcc
        have hb : blocksizeW = 58315 := rfl
        simp only [List.length_drop, List.length_cons] at *
        omega

/-- Every chunk is nonempty (`if n > 0` in the write loop). -/
theorem chunks_ne_nil (l : List Nat) : ∀ b ∈ chunks l, b ≠ [] :=
  chunksAux_ne_nil _ _ le_rfl

theorem chunksAux_length (fuel : Nat) : ∀ l : List Nat,
    l.length ≤ fuel → (chunksAux fuel l).length = (l.length + (blocksizeW - 1)) / blocksizeW := by
  induction fuel with
  | zero =>
    intro l h
    rw [List.length_eq_zero.mp (Nat.le_zero.mp h)]
    simp [chunksAux_nil, blocksizeW]
  | succ f ih =>
    intro l h
    match l with
    | [] => simp [chunksAux, blocksizeW]
    | b :: tl =>
      simp only [chunksAux, List.length_cons]
      rw [ih _ (by have hb : blocksizeW = 58315 := rfl
                   simp only [List.length_drop, List.length_cons] at *
                   omega)]
      have hb : blocksizeW = 58315 := rfl
      simp only [List.length_drop, List.length_cons, hb]
      omega

/-- Number of chunks: `⌈length / blocksize⌉`. -/
theorem chunks_length (l : List Nat) :
    (chunks l).length = (l.length + (blocksizeW - 1)) / blocksizeW :=
  chunksAux_length _ _ le_rfl

theorem writeFile_eq (fl : Flate) (crc : List Nat → Nat) (level : Int) (now : Nat)
    (input : List Nat) (hlev : ¬(level < -2 ∨ 9 < level)) :
    writeFile fl crc level now input =
      gzHeader now (xflOf level)
      ++ (extraHead (chunks input).length
      ++ (sizeBytes fl (chunks input)
      ++ (bodyBytes fl (chunks input)
      ++ trailerBytes (crc input) input.length))) := by
  simp only [writeFile, writeRun, if_neg hlev, if_neg (Bool.false_ne_true)]
  simp only [List.map_append, List.map_cons, List.map_map, List.map_nil, eventBytes,
    List.flatten_append, List.flatten_cons, List.flatten_nil, List.nil_append,
    List.append_nil, sizeBytes]
  rfl

@[simp] theorem gzHeader_length (now xfl : Nat) : (gzHeader now xfl).length = 10 := by
  simp [gzHeader]

@[simp] theorem extraHead_length (cnt : Nat) : (extraHead cnt).length = 12 := by
  simp [extraHead, le16]

@[simp] theorem sizeBytes_length (fl : Flate) (blocks : List (List Nat)) :
    (sizeBytes fl blocks).length = 2 * blocks.length := by
  induction blocks with
  | nil => rfl
  | cons b tl ih => simp [sizeBytes] at *; omega

theorem le32_mod (n : Nat) : le32 (n % 2 ^ 32) = le32 n := by
  simp only [le32, List.cons.injEq, and_true]
  omega

/-- C5: the extra field `Write` emits, i.e. bytes `[10, 12 + 2·blockCount)` of
the destination file, is exactly `xlen = 10 + 2·blockCount` (LE16), subfield
header `R`,`A`, subfield length `6 + 2·blockCount` (LE16), version 1 (LE16),
the blocksize (LE16), the block count (LE16), then each recorded compressed
block length (LE16). -/
theorem write_extra_field_layout (fl : Flate) (crc : List Nat → Nat) (level : Int)
    (now : Nat) (input : List Nat) (hlev : ¬(level < -2 ∨ 9 < level)) :
    ((writeFile fl crc level now input).drop 10).take (12 + 2 * (chunks input).length) =
      le16 (10 + 2 * (chunks input).length) ++ [82, 65]
      ++ le16 (6 + 2 * (chunks input).length) ++ le16 1 ++ le16 blocksizeW
      ++ le16 (chunks input).length
      ++ ((chunks input).map fun b => le16 (fl.compress b).length).flatten := by
  rw [writeFile_eq fl crc level now input hlev]
  rw [List.drop_left' (gzHeader_length now (xflOf level))]
  rw [show extraHead (chunks input).length ++ (sizeBytes fl (chunks input)
        ++ (bodyBytes fl (chunks input) ++ trailerBytes (crc input) input.length))
      = (extraHead (chunks input).length ++ sizeBytes fl (chunks input))
        ++ (bodyBytes fl (chunks input) ++ trailerBytes (crc input) input.length) by
    simp [List.append_assoc]]
  rw [List.take_left' (by simp)]
  simp [extraHead, sizeBytes, le16, List.append_assoc]

/-- C6: the last 8 bytes `Write` emits are the CRC-32 of the raw input (LE32)
followed by the raw byte count modulo `2 ^ 32` (LE32). -/
theorem write_trailer_layout (fl : Flate) (crc : List Nat → Nat) (level : Int)
    (now : Nat) (input : List Nat) (hlev : ¬(level < -2 ∨ 9 < level)) :
    (writeFile fl crc level now input).drop
        ((writeFile fl crc level now input).length - 8) =
      le32 (crc input) ++ le32 (input.length % 2 ^ 32) := by
  rw [le32_mod]
  rw [writeFile_eq fl crc level now input hlev]
  rw [show gzHeader now (xflOf level) ++ (extraHead (chunks input).length
        ++ (sizeBytes fl (chunks input)
        ++ (bodyBytes fl (chunks input) ++ trailerBytes (crc input) input.length)))
      = (gzHeader now (xflOf level) ++ extraHead (chunks input).length
        ++ sizeBytes fl (chunks input) ++ bodyBytes fl (chunks input))
        ++ trailerBytes (crc input) input.length by
    simp [List.append_assoc]]
  have hlen : ((gzHeader now (xflOf level) ++ extraHead (chunks input).length
      ++ sizeBytes fl (chunks input) ++ bodyBytes fl (chunks input))
      ++ trailerBytes (crc input) input.length).length - 8
      = (gzHeader now (xflOf level) ++ extraHead (chunks input).length
      ++ sizeBytes fl (chunks input) ++ bodyBytes fl (chunks input)).length := by
    simp [trailerBytes, le32]
    omega
  rw [hlen, List.drop_left]
  rfl

/-- C9: when reading the source fails with an error other than `io.EOF`,
`Write` returns that error and the destination is never touched: no
`os.Create` happens (the event list is empty), because all chunks are read
and compressed into the in-memory buffer before the destination is created. -/
theorem write_source_error_no_destination (fl : Flate) (crc : List Nat → Nat)
    (level : Int) (now : Nat) (input : List Nat)
    (hlev : ¬(level < -2 ∨ 9 < level)) :
    writeRun fl crc level now input true = ([], .error .srcRead) := by
  simp [writeRun, hlev]

/-- Witness for `write_source_error_no_destination` at a concrete instance. -/
theorem write_source_error_no_destination_witness :
    ¬((6 : Int) < -2 ∨ 9 < (6 : Int)) ∧
      writeRun rawFlate zeroCrc 6 0 [1, 2, 3] true = ([], .error .srcRead) :=
  ⟨by decide, write_source_error_no_destination rawFlate zeroCrc 6 0 [1, 2, 3] (by decide)⟩

/-- Witness for `write_extra_field_layout` at a concrete instance. -/
theorem write_extra_field_layout_witness :
    ¬((6 : Int) < -2 ∨ 9 < (6 : Int)) ∧
      ((writeFile rawFlate zeroCrc 6 0 [7]).drop 10).take (12 + 2 * (chunks [7]).length) =
        le16 (10 + 2 * (chunks [7]).length) ++ [82, 65]
        ++ le16 (6 + 2 * (chunks [7]).length) ++ le16 1 ++ le16 blocksizeW
        ++ le16 (chunks [7]).length
        ++ ((chunks [7]).map fun b => le16 (rawFlate.compress b).length).flatten :=
  ⟨by decide, write_extra_field_layout rawFlate zeroCrc 6 0 [7] (by decide)⟩

/-- Witness for `write_trailer_layout` at a concrete instance. -/
theorem write_trailer_layout_witness :
    ¬((6 : Int) < -2 ∨ 9 < (6 : Int)) ∧
      (writeFile rawFlate zeroCrc 6 0 [7]).drop
          ((writeFile rawFlate zeroCrc 6 0 [7]).length - 8) =
        le32 (zeroCrc [7]) ++ le32 ([7].length % 2 ^ 32) :=
  ⟨by decide, write_trailer_layout rawFlate zeroCrc 6 0 [7] (by decide)⟩

/-- The lookup table inverts the alphabet on digit values `0..63`. -/
theorem index_list : ∀ d, d < 64 → index.getD (list.getD d 0) 99 = d := by
  decide

/-- Running the decode loop over a little-endian digit sequence (as produced
by the alphabet map) accumulates the positional value, as long as the total
fits in the 64-bit accumulator. -/
theorem decodeLoop_digits (ds : List Nat) : ∀ acc off : Nat,
    (∀ d ∈ ds, d < 64) →
    Nat.ofDigits 64 ds * 2 ^ off + acc < 2 ^ 64 →
    acc < 2 ^ off →
    decodeLoop (ds.map fun d => list.getD d 0) acc off
      = .ok ((Nat.ofDigits 64 ds : Nat) * 2 ^ off + acc) := by
  induction ds with
  | nil =>
    intro acc off _ _ _
    simp [decodeLoop, Nat.ofDigits_nil]
  | cons d tl ih =>
    intro acc off hd hbound hacc
    have hd64 : d < 64 := hd d (List.mem_cons_self d tl)
    have hofd : (Nat.ofDigits 64 (d :: tl) : Nat) = d + 64 * Nat.ofDigits 64 tl := by
      simp [Nat.ofDigits_cons]
    have hdle : d * 2 ^ off ≤ (Nat.ofDigits 64 (d :: tl) : Nat) * 2 ^ off := by
      apply Nat.mul_le_mul_right
      rw [hofd]
      omega
    have hdlt : d * 2 ^ off < 2 ^ 64 := lt_of_le_of_lt (le_trans hdle (Nat.le_add_right _ _)) hbound
    simp only [List.map_cons, decodeLoop, index_list d hd64]
    rw [if_neg (by omega : ¬ d = 99)]
    have hshl : (d <<< off) % 2 ^ 64 = d * 2 ^ off := by
      rw [Nat.shiftLeft_eq, Nat.mod_eq_of_lt hdlt]
    have hshr : (d * 2 ^ off) >>> off = d := by
      rw [Nat.shiftRight_eq_div_pow]
      exact Nat.mul_div_cancel d (Nat.pos_pow_of_pos off (by norm_num))
    rw [if_neg (by rw [hshl, hshr]; simp)]
    have hlor : acc ||| ((d <<< off) % 2 ^ 64) = acc + d * 2 ^ off := by
      rw [hshl, Nat.lor_comm, Nat.mul_comm d (2 ^ off),
        ← Nat.mul_add_lt_is_or hacc d]
      ring
    rw [hlor]
    have hacc6 : acc + d * 2 ^ off < 2 ^ (off + 6) := by
      have h64 : (2 : Nat) ^ (off + 6) = 2 ^ off * 64 := by
        rw [pow_add]
        norm_num
      calc acc + d * 2 ^ off < 2 ^ off + d * 2 ^ off := by omega
        _ ≤ 2 ^ off + 63 * 2 ^ off := by
            have := Nat.mul_le_mul_right (2 ^ off) (by omega : d ≤ 63)
            omega
        _ ≤ 2 ^ off * 64 := by ring_nf; omega
        _ = 2 ^ (off + 6) := h64.symm
    have hkey : (Nat.ofDigits 64 tl : Nat) * 2 ^ (off + 6) + (acc + d * 2 ^ off)
        = (Nat.ofDigits 64 (d :: tl) : Nat) * 2 ^ off + acc := by
      rw [hofd, pow_add]
      ring
    rw [ih (acc + d * 2 ^ off) (off + 6)
      (fun x hx => hd x (List.mem_cons_of_mem d hx))
      (by rw [hkey]; exact hbound) hacc6]
    rw [hkey]

/-- C7: the compact integer codec round-trips: decoding the encoding of any
integer representable as a non-negative `int64` gives that integer back;
`encode` (modelled from the spec) is minimal-length over the alphabet and
sends `0` to the zero digit. -/
theorem decode_encode (n : Nat) (h : n < 2 ^ 63) : decode (encode n) = .ok (n : Int) := by
  rcases Nat.eq_zero_or_pos n with h0 | hpos
  · subst h0
    decide
  · unfold decode encode
    rw [if_neg (by omega : ¬ n = 0)]
    rw [← List.map_reverse, List.reverse_reverse]
    rw [decodeLoop_digits (Nat.digits 64 n) 0 0
      (fun d hd => Nat.digits_lt_base (by norm_num) hd)
      (by simpa [Nat.ofDigits_digits] using lt_trans h (by norm_num))
      (by norm_num)]
    simp only [Nat.ofDigits_digits, Nat.pow_zero, Nat.mul_one, Nat.add_zero, Except.map]
    rw [toInt64, if_pos h]

/-- Witness for `decode_encode`: round trip at the concrete value 150000. -/
theorem decode_encode_witness :
    150000 < 2 ^ 63 ∧ decode (encode 150000) = .ok (150000 : Int) :=
  ⟨by norm_num, decode_encode 150000 (by norm_num)⟩

/-- Behaviour of the decode loop when position `i` (in processing order)
holds the first out-of-alphabet byte: the loop fails; the error is the
illegal-character error when every earlier position passes the shift check
at its offset, and the overflow error when some earlier position fails it. -/
theorem decodeLoop_illegal_split (l : List Nat) : ∀ i acc off : Nat,
    i < l.length →
    index.getD (l.getD i 0) 99 = 99 →
    (∀ j, j < i → index.getD (l.getD j 0) 99 ≠ 99) →
    ((∀ j, j < i →
        ((index.getD (l.getD j 0) 99 <<< (off + 6 * j)) % 2 ^ 64) >>> (off + 6 * j)
          = index.getD (l.getD j 0) 99) →
      decodeLoop l acc off = .error .illegalChar) ∧
    ((∃ j, j < i ∧ ¬ (((index.getD (l.getD j 0) 99 <<< (off + 6 * j)) % 2 ^ 64) >>> (off + 6 * j)
        = index.getD (l.getD j 0) 99)) →
      decodeLoop l acc off = .error .overflow) := by
  induction l with
  | nil =>
    intro i acc off hi _ _
    simp at hi
  | cons c rest ih =>
    intro i acc off hi hill hfirst
    match i with
    | 0 =>
      refine ⟨fun _ => ?_, fun hex => ?_⟩
      · simp only [decodeLoop]
        rw [if_pos (by simpa using hill)]
      · obtain ⟨j, hj, _⟩ := hex
        omega
    | i' + 1 =>
      have hc : ¬ index.getD c 99 = 99 := by
        have h0 := hfirst 0 (by omega)
        simpa using h0
      by_cases hchk : ((index.getD c 99 <<< off) % 2 ^ 64) >>> off = index.getD c 99
      · have hrec : decodeLoop (c :: rest) acc off
            = decodeLoop rest (acc ||| ((index.getD c 99 <<< off) % 2 ^ 64)) (off + 6) := by
          simp only [decodeLoop]
          rw [if_neg hc, if_neg (not_not_intro hchk)]
        have hIH := ih i' (acc ||| ((index.getD c 99 <<< off) % 2 ^ 64)) (off + 6)
          (by simpa using hi)
          (by simpa using hill)
          (fun j hj => by
            have hj1 := hfirst (j + 1) (by omega)
            simpa using hj1)
        refine ⟨fun hall => ?_, fun hex => ?_⟩
        · rw [hrec]
          refine hIH.1 ?_
          intro j hj
          have hjj := hall (j + 1) (by omega)
          rw [List.getD_cons_succ] at hjj
          have harith : off + 6 * (j + 1) = off + 6 + 6 * j := by ring
          rw [harith] at hjj
          exact hjj
        · rw [hrec]
          obtain ⟨j, hj, hfail⟩ := hex
          match j with
          | 0 =>
            exfalso
            apply hfail
            simpa using hchk
          | j' + 1 =>
            refine hIH.2 ⟨j', by omega, ?_⟩
            rw [List.getD_cons_succ] at hfail
            have harith : off + 6 * (j' + 1) = off + 6 + 6 * j' := by ring
            rw [harith] at hfail
            exact hfail
      · have hov : decodeLoop (c :: rest) acc off = .error .overflow := by
          simp only [decodeLoop]
          rw [if_neg hc, if_pos hchk]
        refine ⟨fun hall => ?_, fun _ => hov⟩
        exfalso
        apply hchk
        have h0 := hall 0 (by omega)
        simpa using h0

/-- C8 (amended): decoding any string containing a byte outside the base-64
alphabet fails and returns no value, with either the illegal-character or
the overflow error; relative to the rightmost illegal byte - the first one
the right-to-left loop reaches, position `i` of the reversed input - the
error is the illegal-character error when every character processed before
it (to its right) passes the 64-bit shift check at its offset, and the
overflow error when some character processed before it fails that check. -/
theorem decode_illegal_fails (val : List Nat) (i : Nat)
    (hi : i < val.reverse.length)
    (hill : index.getD (val.reverse.getD i 0) 99 = 99)
    (hfirst : ∀ j, j < i → index.getD (val.reverse.getD j 0) 99 ≠ 99) :
    (decode val = .error .illegalChar ∨ decode val = .error .overflow) ∧
    ((∀ j, j < i →
        ((index.getD (val.reverse.getD j 0) 99 <<< (6 * j)) % 2 ^ 64) >>> (6 * j)
          = index.getD (val.reverse.getD j 0) 99) →
      decode val = .error .illegalChar) ∧
    ((∃ j, j < i ∧ ¬ (((index.getD (val.reverse.getD j 0) 99 <<< (6 * j)) % 2 ^ 64) >>> (6 * j)
        = index.getD (val.reverse.getD j 0) 99)) →
      decode val = .error .overflow) := by
  have hsplit := decodeLoop_illegal_split val.reverse i 0 0 hi hill hfirst
  simp only [Nat.zero_add] at hsplit
  have hmap : ∀ e, decodeLoop val.reverse 0 0 = .error e → decode val = .error e := by
    intro e he
    unfold decode
    rw [he]
    rfl
  refine ⟨?_, fun hall => hmap _ (hsplit.1 hall), fun hex => hmap _ (hsplit.2 hex)⟩
  by_cases hall : ∀ j, j < i →
      ((index.getD (val.reverse.getD j 0) 99 <<< (6 * j)) % 2 ^ 64) >>> (6 * j)
        = index.getD (val.reverse.getD j 0) 99
  · exact Or.inl (hmap _ (hsplit.1 hall))
  · push_neg at hall
    obtain ⟨j, hj, hne⟩ := hall
    exact Or.inr (hmap _ (hsplit.2 ⟨j, hj, hne⟩))

/-- Counterexample to C8 as stated: the input `"*QAAAAAAAAAA"` contains the
out-of-alphabet byte 42, yet `decode` reports the overflow error, not the
illegal-character error, because the loop runs right to left and the digit
16 at shift offset 60 fails the shift check before the illegal byte is
reached. -/
theorem decode_illegal_counterexample :
    (∃ c ∈ [42, 81, 65, 65, 65, 65, 65, 65, 65, 65, 65, 65], index.getD c 99 = 99) ∧
    decode [42, 81, 65, 65, 65, 65, 65, 65, 65, 65, 65, 65] = .error .overflow ∧
    decode [42, 81, 65, 65, 65, 65, 65, 65, 65, 65, 65, 65] ≠ .error .illegalChar := by
  refine ⟨⟨42, by decide, by decide⟩, by decide, by decide⟩

/-- Witness for `decode_illegal_fails` at a concrete input: a lone `"!"`,
whose first (and only) processed position is the illegal byte. -/
theorem decode_illegal_fails_witness :
    0 < ([33] : List Nat).reverse.length ∧
    index.getD (([33] : List Nat).reverse.getD 0 0) 99 = 99 ∧
    (∀ j, j < 0 → index.getD (([33] : List Nat).reverse.getD j 0) 99 ≠ 99) ∧
    ((decode [33] = .error .illegalChar ∨ decode [33] = .error .overflow) ∧
     ((∀ j, j < 0 →
         ((index.getD (([33] : List Nat).reverse.getD j 0) 99 <<< (6 * j)) % 2 ^ 64)
             >>> (6 * j)
           = index.getD (([33] : List Nat).reverse.getD j 0) 99) →
       decode [33] = .error .illegalChar) ∧
     ((∃ j, j < 0 ∧
         ¬ (((index.getD (([33] : List Nat).reverse.getD j 0) 99 <<< (6 * j)) % 2 ^ 64)
             >>> (6 * j)
           = index.getD (([33] : List Nat).reverse.getD j 0) 99)) →
       decode [33] = .error .overflow)) :=
  ⟨by decide, by decide, by decide,
   decode_illegal_fails [33] 0 (by decide) (by decide) (by decide)⟩

theorem mkOffsets_length (ls : List Nat) : ∀ p, (mkOffsets p ls).length = ls.length + 1 := by
  induction ls with
  | nil => intro p; rfl
  | cons l tl ih => intro p; simp [mkOffsets, ih]

theorem mkOffsets_getD_zero (ls : List Nat) (p : Nat) : (mkOffsets p ls).getD 0 0 = p := by
  cases ls <;> rfl

theorem mkOffsets_getD_succ (ls : List Nat) : ∀ p i, i < ls.length →
    (mkOffsets p ls).getD (i + 1) 0 = (mkOffsets p ls).getD i 0 + ls.getD i 0 := by
  induction ls with
  | nil =>
    intro p i h
    simp at h
  | cons l tl ih =>
    intro p i h
    match i with
    | 0 =>
      simp only [mkOffsets, List.getD_cons_succ, List.getD_cons_zero]
      exact mkOffsets_getD_zero tl (p + l)
    | i + 1 =>
      simp only [mkOffsets, List.getD_cons_succ]
      exact ih (p + l) i (by simpa using h)

theorem mkOffsets_ge (ls : List Nat) : ∀ p j, j < (mkOffsets p ls).length →
    p ≤ (mkOffsets p ls).getD j 0 := by
  induction ls with
  | nil =>
    intro p j hj
    simp [mkOffsets, mkOffsets_length] at hj
    subst hj
    simp [mkOffsets]
  | cons l tl ih =>
    intro p j hj
    match j with
    | 0 => simp [mkOffsets]
    | j + 1 =>
      simp only [mkOffsets, List.getD_cons_succ]
      refine le_trans (Nat.le_add_right p l) (ih (p + l) j ?_)
      simp only [mkOffsets, List.length_cons] at hj
      omega

theorem mkOffsets_mono (ls : List Nat) : ∀ p i j, i ≤ j → j < (mkOffsets p ls).length →
    (mkOffsets p ls).getD i 0 ≤ (mkOffsets p ls).getD j 0 := by
  induction ls with
  | nil =>
    intro p i j hij hj
    simp [mkOffsets, mkOffsets_length] at hj
    subst hj
    interval_cases i <;> rfl
  | cons l tl ih =>
    intro p i j hij hj
    match i, j with
    | 0, j =>
      rw [mkOffsets_getD_zero]
      exact mkOffsets_ge _ _ _ hj
    | i + 1, j + 1 =>
      simp only [mkOffsets, List.getD_cons_succ]
      refine ih (p + l) i j (by omega) ?_
      simp only [mkOffsets, List.length_cons] at hj
      omega

@[simp] theorem blockLens_length (meta : List Nat) (cnt : Nat) :
    (blockLens meta cnt).length = cnt := by
  simp [blockLens]

theorem blockLens_getD (meta : List Nat) (cnt i : Nat) (h : i < cnt) :
    (blockLens meta cnt).getD i 0 = meta.getD (6 + 2 * i) 0 + 256 * meta.getD (7 + 2 * i) 0 := by
  unfold blockLens
  rw [List.getD_eq_getElem _ _ (by simpa using h)]
  simp

/-- C3: after every successful `NewReader` parse, the offsets array has
block count + 1 entries, `offsets[0]` is the number of header bytes consumed
by the parse, `offsets[i+1] = offsets[i] + blockLength[i]` for each `i`
below the block count, and the sequence is non-decreasing. -/
theorem newReader_offsets (f : List Nat) (r : Reader) (h : NewReader f = .ok r) :
    ∃ p bs meta, parseHeader f = .ok (p, bs, meta) ∧
      r.offsets.length = (meta.getD 4 0 + 256 * meta.getD 5 0) + 1 ∧
      r.offsets.getD 0 0 = p ∧
      (∀ i, i < meta.getD 4 0 + 256 * meta.getD 5 0 →
        r.offsets.getD (i + 1) 0
          = r.offsets.getD i 0 + (meta.getD (6 + 2 * i) 0 + 256 * meta.getD (7 + 2 * i) 0)) ∧
      (∀ i j, i ≤ j → j < r.offsets.length →
        r.offsets.getD i 0 ≤ r.offsets.getD j 0) := by
  unfold NewReader at h
  cases hp : parseHeader f with
  | error e =>
    rw [hp] at h
    exact absurd h (by simp)
  | ok t =>
    obtain ⟨p, bs, meta⟩ := t
    rw [hp] at h
    simp only at h
    by_cases hg : 6 + 2 * (meta.getD 4 0 + 256 * meta.getD 5 0) ≤ meta.length
    · rw [if_pos hg] at h
      injection h with h
      subst h
      refine ⟨p, bs, meta, rfl, ?_, mkOffsets_getD_zero _ _, ?_, ?_⟩
      · simp [mkOffsets_length]
      · intro i hi
        rw [mkOffsets_getD_succ _ _ _ (by simpa using hi)]
        rw [blockLens_getD _ _ _ hi]
      · intro i j hij hj
        exact mkOffsets_mono _ _ _ _ hij hj
    · rw [if_neg hg] at h
      exact absurd h (by simp)

/-- Witness for `newReader_offsets`: a 24-byte well-formed header with one
block of compressed length 3 and blocksize 1 parses to offsets `[24, 27]`. -/
theorem newReader_offsets_witness :
    NewReader [31, 139, 8, 4, 0, 0, 0, 0, 0, 255, 12, 0, 82, 65, 8, 0, 1, 0, 1, 0, 1, 0, 3, 0]
        = .ok ⟨[31, 139, 8, 4, 0, 0, 0, 0, 0, 255, 12, 0, 82, 65, 8, 0, 1, 0, 1, 0, 1, 0, 3, 0],
               [24, 27], 1⟩ ∧
      ∃ p bs meta,
        parseHeader [31, 139, 8, 4, 0, 0, 0, 0, 0, 255, 12, 0, 82, 65, 8, 0, 1, 0, 1, 0, 1, 0, 3, 0]
          = .ok (p, bs, meta) ∧
        ([24, 27] : List Nat).length = (meta.getD 4 0 + 256 * meta.getD 5 0) + 1 ∧
        ([24, 27] : List Nat).getD 0 0 = p ∧
        (∀ i, i < meta.getD 4 0 + 256 * meta.getD 5 0 →
          ([24, 27] : List Nat).getD (i + 1) 0
            = ([24, 27] : List Nat).getD i 0
              + (meta.getD (6 + 2 * i) 0 + 256 * meta.getD (7 + 2 * i) 0)) ∧
        (∀ i j, i ≤ j → j < ([24, 27] : List Nat).length →
          ([24, 27] : List Nat).getD i 0 ≤ ([24, 27] : List Nat).getD j 0) :=
  ⟨by decide,
   newReader_offsets [31, 139, 8, 4, 0, 0, 0, 0, 0, 255, 12, 0, 82, 65, 8, 0, 1, 0, 1, 0, 1, 0, 3, 0]
     ⟨[31, 139, 8, 4, 0, 0, 0, 0, 0, 255, 12, 0, 82, 65, 8, 0, 1, 0, 1, 0, 1, 0, 3, 0], [24, 27], 1⟩
     (by decide)⟩

/-- C4 (amended): on any input of at least 10 bytes whose first two bytes
are not the gzip magic pair or whose third byte is not the DEFLATE method
id, `NewReader` fails with a format error and returns no `Reader`. -/
theorem newReader_bad_magic_or_method (f : List Nat) (hlen : 10 ≤ f.length)
    (hbad : ¬(f.getD 0 0 = 31 ∧ f.getD 1 0 = 139) ∨ ¬ f.getD 2 0 = 8) :
    ∃ e, NewReader f = .error e ∧ e.isFormat = true := by
  unfold NewReader parseHeader
  rw [if_pos hlen]
  by_cases hm : f.getD 0 0 = 31 ∧ f.getD 1 0 = 139
  · rw [if_pos hm]
    have hc : ¬ f.getD 2 0 = 8 := by
      rcases hbad with hb | hb
      · exact absurd hm hb
      · exact hb
    rw [if_neg hc]
    exact ⟨.badMethod, rfl, rfl⟩
  · rw [if_neg hm]
    exact ⟨.badMagic, rfl, rfl⟩

/-- Witness for `newReader_bad_magic_or_method`: ten zero bytes. -/
theorem newReader_bad_magic_or_method_witness :
    10 ≤ ([0, 0, 0, 0, 0, 0, 0, 0, 0, 0] : List Nat).length ∧
      (¬(([0, 0, 0, 0, 0, 0, 0, 0, 0, 0] : List Nat).getD 0 0 = 31 ∧
         ([0, 0, 0, 0, 0, 0, 0, 0, 0, 0] : List Nat).getD 1 0 = 139) ∨
       ¬ ([0, 0, 0, 0, 0, 0, 0, 0, 0, 0] : List Nat).getD 2 0 = 8) ∧
      ∃ e, NewReader [0, 0, 0, 0, 0, 0, 0, 0, 0, 0] = .error e ∧ e.isFormat = true :=
  ⟨by decide, by decide,
   newReader_bad_magic_or_method [0, 0, 0, 0, 0, 0, 0, 0, 0, 0] (by decide) (by decide)⟩

/-- Counterexample to C4 as stated: a 2-byte input whose first two bytes are
not the magic pair makes `NewReader` fail with the `readfull` end-of-input
error - an I/O error, not a format error (construction still fails
atomically, but the claimed error class is wrong for inputs shorter than
the 10-byte header). -/
theorem newReader_bad_magic_io_counterexample :
    ¬(([0, 0] : List Nat).getD 0 0 = 31 ∧ ([0, 0] : List Nat).getD 1 0 = 139) ∧
      NewReader [0, 0] = .error .io ∧ RErr.isFormat .io = false :=
  ⟨by decide, by decide, rfl⟩

/-- C10: `decode` can succeed with a negative value: on the 11-character
all-alphabet input `"IAAAAAAAAAA"` (digit 8 at position 10) the per-digit
shift check passes, the unsigned accumulator holds `2 ^ 63`, and the
`int64` reinterpretation yields `-2 ^ 63`, which `GetB64` passes to `Get`
as a negative start. -/
theorem decode_negative_reaches_get :
    decode [73, 65, 65, 65, 65, 65, 65, 65, 65, 65, 65] = .ok (-(2 ^ 63)) ∧
    (-(2 ^ 63) : Int) < 0 ∧
    ∀ (fl : Flate) (r : Reader),
      GetB64 fl r [73, 65, 65, 65, 65, 65, 65, 65, 65, 65, 65] [65]
        = Get fl r (-(2 ^ 63)) 0 := by
  have h1 : decode [73, 65, 65, 65, 65, 65, 65, 65, 65, 65, 65] = .ok (-(2 ^ 63)) := by
    decide
  have h2 : decode [65] = .ok 0 := by decide
  refine ⟨h1, by norm_num, ?_⟩
  intro fl r
  rw [GetB64, h1, h2]

theorem unDecAux_zero (fuel : Nat) (s : List Nat) : unDecAux fuel 0 s = some [] := by
  cases fuel <;> rfl

theorem unDecAux_eq_of_le (fuel : Nat) : ∀ (fuel' n : Nat) (s : List Nat),
    s.length ≤ fuel → s.length ≤ fuel' → unDecAux fuel n s = unDecAux fuel' n s := by
  induction fuel with
  | zero =>
    intro fuel' n s h _
    rw [List.length_eq_zero.mp (Nat.le_zero.mp h)]
    match n with
    | 0 => rw [unDecAux_zero, unDecAux_zero]
    | m + 1 => cases fuel' <;> rfl
  | succ f ih =>
    intro fuel' n s h h'
    match n with
    | 0 => rw [unDecAux_zero, unDecAux_zero]
    | m + 1 =>
      match s with
      | [] => cases fuel' <;> rfl
      | ln :: rest =>
        match fuel' with
        | 0 => simp at h'
        | f' + 1 =>
          simp only [unDecAux]
          by_cases h1 : ln ≤ rest.length
          · rw [if_pos h1, if_pos h1]
            by_cases h2 : m + 1 ≤ ln
            · rw [if_pos h2, if_pos h2]
            · rw [if_neg h2, if_neg h2]
              rw [ih f' (m + 1 - ln) (rest.drop ln)
                (by simp only [List.length_drop, List.length_cons] at *; omega)
                (by simp only [List.length_drop, List.length_cons] at *; omega)]
          · rw [if_neg h1, if_neg h1]

theorem unDecAux_frames : ∀ bs : List (List Nat), (∀ b ∈ bs, b ≠ []) →
    ∀ (rest : List Nat) (n : Nat), n ≤ bs.flatten.length →
      unDecAux ((bs.map fun b => b.length :: b).flatten ++ rest).length n
          ((bs.map fun b => b.length :: b).flatten ++ rest)
        = some (bs.flatten.take n) := by
  intro bs
  induction bs with
  | nil =>
    intro _ rest n hn
    simp only [List.flatten_nil, List.length_nil, Nat.le_zero] at hn
    subst hn
    rw [unDecAux_zero]
    rfl
  | cons b tl ih =>
    intro hne rest n hn
    match n with
    | 0 =>
      rw [unDecAux_zero]
      rfl
    | m + 1 =>
      have hb : b ≠ [] := hne b (List.mem_cons_self b tl)
      have hb1 : 1 ≤ b.length := by
        cases b with
        | nil => exact absurd rfl hb
        | cons x xs => simp
      have hstream : (((b :: tl).map fun c => c.length :: c).flatten ++ rest)
          = b.length :: (b ++ ((tl.map fun c => c.length :: c).flatten ++ rest)) := by
        simp [List.append_assoc]
      rw [hstream]
      have hlen : (b.length :: (b ++ ((tl.map fun c => c.length :: c).flatten ++ rest))).length
          = (b ++ ((tl.map fun c => c.length :: c).flatten ++ rest)).length + 1 := by
        simp
      rw [hlen]
      simp only [unDecAux]
      rw [if_pos (by simp :
        b.length ≤ (b ++ ((tl.map fun c => c.length :: c).flatten ++ rest)).length)]
      by_cases h2 : m + 1 ≤ b.length
      · rw [if_pos h2]
        rw [List.take_append_of_le_length h2]
        rw [List.flatten_cons, List.take_append_of_le_length h2]
      · rw [if_neg h2]
        rw [List.drop_left]
        rw [unDecAux_eq_of_le _
          (((tl.map fun c => c.length :: c).flatten ++ rest).length)
          (m + 1 - b.length) ((tl.map fun c => c.length :: c).flatten ++ rest)
          (by simp) le_rfl]
        rw [ih (fun c hc => hne c (List.mem_cons_of_mem b hc)) rest (m + 1 - b.length)
          (by simp only [List.flatten_cons, List.length_append] at hn; omega)]
        simp only [List.take_left]
        have htake : (b ++ tl.flatten).take (m + 1)
            = b ++ tl.flatten.take (m + 1 - b.length) := by
          rw [List.take_append_eq_append_take,
            List.take_of_length_le (by omega : b.length ≤ m + 1)]
        rw [List.flatten_cons, htake]

theorem unaryFlate_spec : FlateSpec unaryFlate := by
  intro bs hne rest n hn
  simp only [unaryFlate, FlateSpec, List.append_nil]
  exact unDecAux_frames bs hne rest n hn

/-- C2: for a `Reader` on a well-formed file and `start, size ≥ 0` with
`start + size` inside the uncompressed span of block `start / blocksize`,
`Get` seeks to `offsets[start / blocksize]`, reads
`(start mod blocksize) + size` bytes from a fresh decompressor there, and
returns exactly `rawInput[start : start + size]`. -/
theorem get_within_block (fl : Flate) (r : Reader) (raw : List Nat)
    (hrep : Represents fl r raw) (start size : Int)
    (hstart : 0 ≤ start) (hsize : 0 ≤ size)
    (hspan : start + size ≤
      min ((start.tdiv (r.blocksize : Int) + 1) * (r.blocksize : Int)) (raw.length : Int)) :
    Get fl r start size = .ok ((raw.drop start.toNat).take size.toNat) := by
  obtain ⟨hbs, hlen, hdec⟩ := hrep
  obtain ⟨s, rfl⟩ : ∃ s : Nat, start = (s : Int) :=
    ⟨start.toNat, (Int.toNat_of_nonneg hstart).symm⟩
  obtain ⟨z, rfl⟩ : ∃ z : Nat, size = (z : Int) :=
    ⟨size.toNat, (Int.toNat_of_nonneg hsize).symm⟩
  have htdiv : (s : Int).tdiv (r.blocksize : Int) = ((s / r.blocksize : Nat) : Int) := rfl
  have hcomm : r.blocksize * (s / r.blocksize) = (s / r.blocksize) * r.blocksize :=
    Nat.mul_comm _ _
  have hjB : r.blocksize * (s / r.blocksize) ≤ s := Nat.mul_div_le s r.blocksize
  have hspan2 : s + z ≤ raw.length := by
    have h := le_trans hspan (min_le_right _ _)
    exact_mod_cast h
  have hjlt : s / r.blocksize < r.offsets.length := by
    have h1 : s / r.blocksize ≤ raw.length / r.blocksize :=
      Nat.div_le_div_right (by omega)
    have h2 : raw.length / r.blocksize ≤ (raw.length + (r.blocksize - 1)) / r.blocksize :=
      Nat.div_le_div_right (by omega)
    omega
  unfold Get
  rw [if_neg (by omega : ¬ r.blocksize = 0)]
  simp only [htdiv]
  have hBj : (r.blocksize : Int) * ((s / r.blocksize : Nat) : Int)
      = ((r.blocksize * (s / r.blocksize) : Nat) : Int) := by
    push_cast
    ring
  rw [hBj]
  have hsub : ((s : Nat) : Int) - ((r.blocksize * (s / r.blocksize) : Nat) : Int)
      = (((s - r.blocksize * (s / r.blocksize)) : Nat) : Int) := (Nat.cast_sub hjB).symm
  rw [hsub]
  have hadd : ((z : Nat) : Int) + (((s - r.blocksize * (s / r.blocksize)) : Nat) : Int)
      = (((z + (s - r.blocksize * (s / r.blocksize))) : Nat) : Int) := by
    push_cast
    ring
  rw [hadd]
  rw [if_pos ⟨Int.natCast_nonneg _, by rw [Int.toNat_natCast]; exact hjlt⟩]
  rw [if_pos (Int.natCast_nonneg _)]
  simp only [Int.toNat_natCast]
  rw [hdec (s / r.blocksize) hjlt (z + (s - r.blocksize * (s / r.blocksize))) (by omega)]
  show (if 0 ≤ ((s - r.blocksize * (s / r.blocksize) : Nat) : Int) ∧
      ((s - r.blocksize * (s / r.blocksize) : Nat) : Int)
        ≤ ((z + (s - r.blocksize * (s / r.blocksize)) : Nat) : Int) then
      Except.ok (List.drop (s - r.blocksize * (s / r.blocksize))
        (List.take (z + (s - r.blocksize * (s / r.blocksize)))
          (List.drop (s / r.blocksize * r.blocksize) raw)))
    else Except.error GErr.panic) = Except.ok (List.take z (List.drop s raw))
  rw [if_pos ⟨Int.natCast_nonneg _,
    by exact_mod_cast (by omega :
      s - r.blocksize * (s / r.blocksize) ≤ z + (s - r.blocksize * (s / r.blocksize)))⟩]
  rw [List.drop_take, List.drop_drop]
  rw [show z + (s - r.blocksize * (s / r.blocksize)) - (s - r.blocksize * (s / r.blocksize)) = z
    by omega]
  rw [show s / r.blocksize * r.blocksize + (s - r.blocksize * (s / r.blocksize)) = s by omega]

/-- Witness for `get_within_block`: reading one byte at offset 2 (inside
block 1) of the concrete file returns `[7]`. -/
theorem get_within_block_witness :
    Represents unaryFlate wReader [5, 6, 7] ∧
    (0 : Int) ≤ 2 ∧ (0 : Int) ≤ 1 ∧
    ((2 : Int) + 1 ≤
      min (((2 : Int).tdiv (wReader.blocksize : Int) + 1) * (wReader.blocksize : Int))
        (([5, 6, 7] : List Nat).length : Int)) ∧
    Get unaryFlate wReader 2 1
      = .ok ((([5, 6, 7] : List Nat).drop (2 : Int).toNat).take (1 : Int).toNat) :=
  ⟨by unfold Represents; decide, by decide, by decide, by decide,
   get_within_block unaryFlate wReader [5, 6, 7] (by unfold Represents; decide) 2 1 (by decide)
     (by decide) (by decide)⟩

/-! ## Parsing the writer's own output -/

theorem scanRAAux_stop (h : List Nat) (fuel q : Nat) (meta : List Nat)
    (hq : ¬ q < h.length) : scanRAAux h fuel q meta = .ok meta := by
  cases fuel with
  | zero => rfl
  | succ f =>
    simp only [scanRAAux]
    rw [if_neg hq]

/-- Scanning an extra field holding exactly one record, tagged `R`,`A`, with
a correct 16-bit length, captures its payload. -/
theorem scanRA_single (payload : List Nat) (hlen : payload.length < 65536) :
    scanRA ([82, 65] ++ (le16 payload.length ++ payload)) [] = .ok payload := by
  have hL : ([82, 65] ++ (le16 payload.length ++ payload)).length = payload.length + 4 := by
    simp [le16]
  unfold scanRA
  rw [hL]
  conv_lhs => rw [scanRAAux]
  simp only
    [show ([82, 65] ++ (le16 payload.length ++ payload)).getD 0 0 = 82 from rfl,
     show ([82, 65] ++ (le16 payload.length ++ payload)).getD 1 0 = 65 from rfl,
     show ([82, 65] ++ (le16 payload.length ++ payload)).getD 2 0 = payload.length % 256 from rfl,
     show ([82, 65] ++ (le16 payload.length ++ payload)).getD 3 0
       = payload.length / 256 % 256 from rfl,
     hL]
  rw [if_pos (by omega : 0 < payload.length + 4)]
  rw [if_pos (by omega : 0 + 4 ≤ payload.length + 4)]
  rw [show payload.length % 256 + 256 * (payload.length / 256 % 256) = payload.length from
    by omega]
  rw [if_pos (⟨trivial, trivial⟩ : True ∧ True)]
  rw [if_pos (by omega : 0 + 4 + payload.length ≤ payload.length + 4)]
  have hdt : List.take payload.length
      (List.drop (0 + 4) ([82, 65] ++ (le16 payload.length ++ payload))) = payload := by
    rw [show List.drop (0 + 4) ([82, 65] ++ (le16 payload.length ++ payload)) = payload by rfl]
    exact List.take_length payload
  rw [hdt]
  exact scanRAAux_stop _ _ _ _ (by rw [hL]; omega)

/-- Parsing any byte stream of the shape the writer produces: valid magic and
method, flags byte 4 (FEXTRA only), a consistent `xlen` field, then the extra
field bytes and the remainder.  The parse reduces to the record scan followed
by the metadata checks at position `12 + xlen`. -/
theorem parseHeader_fextra (t0 t1 t2 t3 xfl : Nat) (xbody tail : List Nat)
    (hxlen : xbody.length < 65536) :
    parseHeader ([31, 139, 8, 4, t0, t1, t2, t3, xfl, 255]
        ++ (le16 xbody.length ++ (xbody ++ tail)))
      = match scanRA xbody [] with
        | .error e => .error e
        | .ok meta => metaCheck (12 + xbody.length) meta := by
  have hlenf : ([31, 139, 8, 4, t0, t1, t2, t3, xfl, 255]
      ++ (le16 xbody.length ++ (xbody ++ tail))).length
      = 12 + (xbody.length + tail.length) := by
    simp [le16]
    omega
  have hex : extraStep ([31, 139, 8, 4, t0, t1, t2, t3, xfl, 255]
      ++ (le16 xbody.length ++ (xbody ++ tail))) 4
      = match scanRA xbody [] with
        | .error e => .error e
        | .ok meta => .ok (12 + xbody.length, meta) := by
    unfold extraStep
    rw [if_pos (by decide : (4 : Nat) &&& 4 ≠ 0)]
    rw [if_pos (by rw [hlenf]; omega)]
    simp only
      [show ([31, 139, 8, 4, t0, t1, t2, t3, xfl, 255]
          ++ (le16 xbody.length ++ (xbody ++ tail))).getD 10 0 = xbody.length % 256 from rfl,
       show ([31, 139, 8, 4, t0, t1, t2, t3, xfl, 255]
          ++ (le16 xbody.length ++ (xbody ++ tail))).getD 11 0
         = xbody.length / 256 % 256 from rfl]
    rw [show xbody.length % 256 + 256 * (xbody.length / 256 % 256) = xbody.length from by omega]
    rw [if_pos (by rw [hlenf]; omega)]
    rw [show ([31, 139, 8, 4, t0, t1, t2, t3, xfl, 255]
        ++ (le16 xbody.length ++ (xbody ++ tail))).drop 12 = xbody ++ tail from rfl]
    rw [List.take_left]
  unfold parseHeader
  rw [if_pos (by rw [hlenf]; omega)]
  rw [if_pos (⟨rfl, rfl⟩ :
    ([31, 139, 8, 4, t0, t1, t2, t3, xfl, 255]
      ++ (le16 xbody.length ++ (xbody ++ tail))).getD 0 0 = 31 ∧
    ([31, 139, 8, 4, t0, t1, t2, t3, xfl, 255]
      ++ (le16 xbody.length ++ (xbody ++ tail))).getD 1 0 = 139)]
  rw [if_pos (show ([31, 139, 8, 4, t0, t1, t2, t3, xfl, 255]
      ++ (le16 xbody.length ++ (xbody ++ tail))).getD 2 0 = 8 by rfl)]
  simp only [show ([31, 139, 8, 4, t0, t1, t2, t3, xfl, 255]
      ++ (le16 xbody.length ++ (xbody ++ tail))).getD 3 0 = 4 from rfl]
  rw [hex]
  cases hs : scanRA xbody [] with
  | error e => rfl
  | ok meta => rfl

@[simp] theorem dictMeta_length (fl : Flate) (blocks : List (List Nat)) :
    (dictMeta fl blocks).length = 6 + 2 * blocks.length := by
  simp [dictMeta]
  omega

theorem metaCheck_dictMeta (p : Nat) (fl : Flate) (blocks : List (List Nat)) :
    metaCheck p (dictMeta fl blocks) = .ok (p, blocksizeW, dictMeta fl blocks) := by
  unfold metaCheck
  rw [if_pos (by simp : 6 ≤ (dictMeta fl blocks).length)]
  rw [show (dictMeta fl blocks).getD 0 0 = 1 by rfl,
    show (dictMeta fl blocks).getD 1 0 = 0 by rfl,
    show (dictMeta fl blocks).getD 2 0 = 203 by rfl,
    show (dictMeta fl blocks).getD 3 0 = 227 by rfl]
  norm_num [blocksizeW]

/-- The header parse succeeds on the writer's output whenever the extra
field length fits its 16-bit field, returning position `22 + 2·blockCount`,
the blocksize constant, and the dictzip metadata. -/
theorem parseHeader_writeFile (fl : Flate) (crc : List Nat → Nat) (level : Int)
    (now : Nat) (input : List Nat) (hlev : ¬(level < -2 ∨ 9 < level))
    (hcnt : 10 + 2 * (chunks input).length < 65536) :
    parseHeader (writeFile fl crc level now input)
      = .ok (22 + 2 * (chunks input).length, blocksizeW, dictMeta fl (chunks input)) := by
  have hxb : ([82, 65] ++ (le16 (6 + 2 * (chunks input).length)
      ++ dictMeta fl (chunks input))).length = 10 + 2 * (chunks input).length := by
    simp [le16]
    omega
  have hshape : writeFile fl crc level now input
      = [31, 139, 8, 4, now % 256, now / 2 ^ 8 % 256, now / 2 ^ 16 % 256, now / 2 ^ 24 % 256,
         xflOf level, 255]
        ++ (le16 ([82, 65] ++ (le16 (6 + 2 * (chunks input).length)
              ++ dictMeta fl (chunks input))).length
        ++ (([82, 65] ++ (le16 (6 + 2 * (chunks input).length) ++ dictMeta fl (chunks input)))
        ++ (bodyBytes fl (chunks input) ++ trailerBytes (crc input) input.length))) := by
    rw [writeFile_eq fl crc level now input hlev, hxb]
    simp [gzHeader, extraHead, le32, dictMeta, List.append_assoc]
  rw [hshape]
  rw [parseHeader_fextra (now % 256) (now / 2 ^ 8 % 256) (now / 2 ^ 16 % 256)
    (now / 2 ^ 24 % 256) (xflOf level)
    ([82, 65] ++ (le16 (6 + 2 * (chunks input).length) ++ dictMeta fl (chunks input)))
    (bodyBytes fl (chunks input) ++ trailerBytes (crc input) input.length)
    (by rw [hxb]; omega)]
  rw [show le16 (6 + 2 * (chunks input).length)
      = le16 (dictMeta fl (chunks input)).length from by rw [dictMeta_length]]
  rw [scanRA_single (dictMeta fl (chunks input)) (by rw [dictMeta_length]; omega)]
  show metaCheck (12 + ([82, 65] ++ (le16 (dictMeta fl (chunks input)).length
      ++ dictMeta fl (chunks input))).length) (dictMeta fl (chunks input))
    = .ok (22 + 2 * (chunks input).length, blocksizeW, dictMeta fl (chunks input))
  have h12 : 12 + ([82, 65] ++ (le16 (dictMeta fl (chunks input)).length
      ++ dictMeta fl (chunks input))).length = 22 + 2 * (chunks input).length := by
    simp [le16]
    omega
  rw [h12]
  exact metaCheck_dictMeta _ fl (chunks input)

/-- When the block count makes `10 + 2·blockCount` overflow its 16-bit field
to zero, the reader sees an empty extra field, captures no metadata, and the
parse fails. -/
theorem parseHeader_writeFile_overflow (fl : Flate) (crc : List Nat → Nat) (level : Int)
    (now : Nat) (input : List Nat) (hlev : ¬(level < -2 ∨ 9 < level))
    (hcnt : 10 + 2 * (chunks input).length = 65536) :
    parseHeader (writeFile fl crc level now input) = .error .missingMeta := by
  have hshape : writeFile fl crc level now input
      = [31, 139, 8, 4, now % 256, now / 2 ^ 8 % 256, now / 2 ^ 16 % 256, now / 2 ^ 24 % 256,
         xflOf level, 255]
        ++ (le16 ([] : List Nat).length
        ++ (([] : List Nat)
        ++ (([82, 65] ++ (le16 (6 + 2 * (chunks input).length)
              ++ ([1, 0] ++ (le16 blocksizeW ++ (le16 (chunks input).length
                  ++ sizeBytes fl (chunks input))))))
            ++ (bodyBytes fl (chunks input) ++ trailerBytes (crc input) input.length)))) := by
    rw [writeFile_eq fl crc level now input hlev]
    rw [show extraHead (chunks input).length
        = le16 (10 + 2 * (chunks input).length) ++ [82, 65]
          ++ le16 (6 + 2 * (chunks input).length) ++ [1, 0] ++ le16 blocksizeW
          ++ le16 (chunks input).length from rfl]
    rw [hcnt]
    rw [show le16 65536 = le16 ([] : List Nat).length from rfl]
    simp [gzHeader, le32, List.append_assoc]
  rw [hshape]
  rw [parseHeader_fextra (now % 256) (now / 2 ^ 8 % 256) (now / 2 ^ 16 % 256)
    (now / 2 ^ 24 % 256) (xflOf level) ([] : List Nat)
    (([82, 65] ++ (le16 (6 + 2 * (chunks input).length)
        ++ ([1, 0] ++ (le16 blocksizeW ++ (le16 (chunks input).length
            ++ sizeBytes fl (chunks input))))))
      ++ (bodyBytes fl (chunks input) ++ trailerBytes (crc input) input.length))
    (by simp)]
  rfl

/-- On the writer's output, `NewReader` builds offsets from position
`22 + 2·blockCount` and the recorded lengths. -/
theorem newReader_writeFile (fl : Flate) (crc : List Nat → Nat) (level : Int)
    (now : Nat) (input : List Nat) (hlev : ¬(level < -2 ∨ 9 < level))
    (hcnt : (chunks input).length < 32763) :
    NewReader (writeFile fl crc level now input)
      = .ok ⟨writeFile fl crc level now input,
             mkOffsets (22 + 2 * (chunks input).length)
               (blockLens (dictMeta fl (chunks input)) (chunks input).length),
             blocksizeW⟩ := by
  unfold NewReader
  rw [parseHeader_writeFile fl crc level now input hlev (by omega)]
  show (if 6 + 2 * ((dictMeta fl (chunks input)).getD 4 0
          + 256 * (dictMeta fl (chunks input)).getD 5 0)
        ≤ (dictMeta fl (chunks input)).length then
      (Except.ok ⟨writeFile fl crc level now input,
        mkOffsets (22 + 2 * (chunks input).length)
          (blockLens (dictMeta fl (chunks input))
            ((dictMeta fl (chunks input)).getD 4 0
              + 256 * (dictMeta fl (chunks input)).getD 5 0)),
        blocksizeW⟩ : Except RErr Reader)
    else .error .panic)
    = .ok ⟨writeFile fl crc level now input,
           mkOffsets (22 + 2 * (chunks input).length)
             (blockLens (dictMeta fl (chunks input)) (chunks input).length),
           blocksizeW⟩
  have h45 : (dictMeta fl (chunks input)).getD 4 0
      + 256 * (dictMeta fl (chunks input)).getD 5 0 = (chunks input).length := by
    rw [show (dictMeta fl (chunks input)).getD 4 0 = (chunks input).length % 256 from rfl,
      show (dictMeta fl (chunks input)).getD 5 0 = (chunks input).length / 256 % 256 from rfl]
    omega
  rw [h45]
  rw [if_pos (by rw [dictMeta_length] : 6 + 2 * (chunks input).length
      ≤ (dictMeta fl (chunks input)).length)]

/-- Reading the whole content from offset zero: block index 0, no skip. -/
theorem get_all (fl : Flate) (fp offs : List Nat) (L : Nat) (raw : List Nat)
    (hoff : 0 < offs.length)
    (hdec : fl.decompress (fp.drop (offs.getD 0 0)) L = some raw) :
    Get fl ⟨fp, offs, blocksizeW⟩ 0 (L : Int) = .ok raw := by
  unfold Get
  rw [if_neg (show ¬ (Reader.blocksize ⟨fp, offs, blocksizeW⟩ = 0) by simp [blocksizeW])]
  simp only [Int.zero_tdiv, mul_zero, sub_zero, add_zero, Int.toNat_zero, Int.toNat_natCast]
  rw [if_pos ⟨le_refl (0 : Int), hoff⟩]
  rw [if_pos (Int.natCast_nonneg L)]
  rw [hdec]
  show (if (0 : Int) ≤ 0 ∧ (0 : Int) ≤ (L : Int) then
      Except.ok (raw.drop (0 : Int).toNat) else .error .panic) = .ok raw
  rw [if_pos ⟨le_refl (0 : Int), Int.natCast_nonneg L⟩]
  rfl

/-- C1 (amended): for every raw input whose block count keeps the extra
field length within its 16-bit field (at most 32762 blocks, i.e. inputs of
at most 58315 × 32762 = 1910516030 bytes) and every valid compression
level, `Write` then `NewReader` succeeds and `Get(0, L)` returns exactly
the input. -/
theorem write_roundtrip (fl : Flate) (hfl : FlateSpec fl) (crc : List Nat → Nat)
    (level : Int) (hlev : ¬(level < -2 ∨ 9 < level)) (now : Nat) (input : List Nat)
    (hcnt : (chunks input).length < 32763) :
    ∃ r : Reader, NewReader (writeFile fl crc level now input) = .ok r ∧
      Get fl r 0 (input.length : Int) = .ok input := by
  refine ⟨_, newReader_writeFile fl crc level now input hlev hcnt, ?_⟩
  have hdrop : (writeFile fl crc level now input).drop (22 + 2 * (chunks input).length)
      = bodyBytes fl (chunks input) ++ trailerBytes (crc input) input.length := by
    rw [writeFile_eq fl crc level now input hlev]
    rw [show gzHeader now (xflOf level) ++ (extraHead (chunks input).length
          ++ (sizeBytes fl (chunks input)
          ++ (bodyBytes fl (chunks input) ++ trailerBytes (crc input) input.length)))
        = (gzHeader now (xflOf level) ++ extraHead (chunks input).length
            ++ sizeBytes fl (chunks input))
          ++ (bodyBytes fl (chunks input) ++ trailerBytes (crc input) input.length) from by
      simp [List.append_assoc]]
    exact List.drop_left' (by simp; omega)
  apply get_all
  · rw [mkOffsets_length]
    omega
  · rw [mkOffsets_getD_zero, hdrop]
    have hfs := hfl (chunks input) (chunks_ne_nil input)
      (trailerBytes (crc input) input.length) input.length
      (by rw [chunks_flatten])
    rw [show bodyBytes fl (chunks input) ++ trailerBytes (crc input) input.length
        = (((chunks input).map fl.compress).flatten ++ fl.closeMark)
          ++ trailerBytes (crc input) input.length from rfl]
    rw [List.append_assoc] at hfs ⊢
    rw [hfs, chunks_flatten, List.take_length]

/-- Witness for `write_roundtrip` at a concrete instance: three bytes through
the framing codec. -/
theorem write_roundtrip_witness :
    FlateSpec unaryFlate ∧ ¬((-1 : Int) < -2 ∨ 9 < (-1 : Int)) ∧
    (chunks [5, 6, 7]).length < 32763 ∧
    ∃ r : Reader, NewReader (writeFile unaryFlate zeroCrc (-1) 0 [5, 6, 7]) = .ok r ∧
      Get unaryFlate r 0 (([5, 6, 7] : List Nat).length : Int) = .ok [5, 6, 7] :=
  ⟨unaryFlate_spec, by decide, by decide,
   write_roundtrip unaryFlate unaryFlate_spec zeroCrc (-1) (by decide) 0 [5, 6, 7]
     (by decide)⟩

/-- A failing header parse makes `NewReader` fail with the same error. -/
theorem newReader_error (f : List Nat) (e : RErr) (h : parseHeader f = .error e) :
    NewReader f = .error e := by
  unfold NewReader
  rw [h]

/-- Counterexample to C1 as stated: with a `FlateSpec`-conforming
compressor at a valid level, an input of 58315 × 32763 bytes produces 32763
blocks, the emitted `xlen` field `10 + 2·32763 = 65536` wraps to 0, and
`NewReader` on the produced file fails with the missing-metadata error, so
the round trip breaks with no `Reader` at all. -/
theorem write_roundtrip_counterexample :
    FlateSpec unaryFlate ∧
    ¬((-1 : Int) < -2 ∨ 9 < (-1 : Int)) ∧
    NewReader (writeFile unaryFlate zeroCrc (-1) 0 (List.replicate (58315 * 32763) 0))
      = .error .missingMeta := by
  refine ⟨unaryFlate_spec, by decide, ?_⟩
  have hcnt : (chunks (List.replicate (58315 * 32763) 0)).length = 32763 := by
    rw [chunks_length, List.length_replicate]
    norm_num [blocksizeW]
  exact newReader_error _ _ (parseHeader_writeFile_overflow unaryFlate zeroCrc (-1) 0
    (List.replicate (58315 * 32763) 0) (by decide) (by rw [hcnt]))

end Dictzip
